import Mathlib

/-!
Verification of the ANSI-aware truncation component and the
common-modifier extraction of the zjstatus-hints plugin
(src/main.rs).  Strings are modelled as lists of Unicode scalar
values (`List Char`), matching Rust's `str::chars()` iteration;
Rust's `String::len` (a UTF-8 byte count) is modelled by `utf8Len`.
-/

/-- The ESC control character (0x1B) that opens an ANSI escape sequence. -/
def escChar : Char := '\x1b'

/-- UTF-8 byte length of a character sequence, modelling Rust `String::len`. -/
def utf8Len (s : List Char) : Nat := (s.map Char.utf8Size).sum

/-- Plugin state; only the fields used by the truncation routines are kept
(`overflow_str` from the configuration; `max_length` is read by the caller). -/
structure State where
  max_length : Nat
  overflow_str : List Char

/-- The character-scanning loop of `State::calculate_visible_length`
(src/main.rs lines 157-175): `e` is the `in_escape` flag. -/
def visGo : List Char → Bool → Nat
  | [], _ => 0
  | c :: cs, e =>
    if c = escChar then visGo cs true
    else if e then visGo cs (if c = 'm' then false else true)
    else visGo cs e + 1

/-- `State::calculate_visible_length`: count of characters outside
escape-sequence spans, scanning with `in_escape` initially false. -/
def State.calculate_visible_length (_ : State) (text : List Char) : Nat :=
  visGo text false

/-- The copying loop of `State::truncate_ansi_string` (src/main.rs lines
135-151): pushes every character while copying escape sequences in full,
and breaks at the first visible character once `target ≤ cur`. -/
def truncGo (target : Nat) : List Char → Nat → Bool → List Char
  | [], _, _ => []
  | c :: cs, cur, e =>
    if c = escChar then c :: truncGo target cs cur true
    else if e then c :: truncGo target cs cur (if c = 'm' then false else true)
    else if target ≤ cur then []
    else c :: truncGo target cs (cur + 1) e

/-- `State::truncate_ansi_string` (src/main.rs lines 117-155). -/
def State.truncate_ansi_string (self : State) (text : List Char) (max_len : Nat) :
    List Char :=
  let visible_len := self.calculate_visible_length text
  let overflow_len := utf8Len self.overflow_str
  if visible_len ≤ max_len then text
  else if max_len ≤ overflow_len then self.overflow_str
  else
    let target_len := max_len - overflow_len
    truncGo target_len text 0 false ++ self.overflow_str

/-- Natural subtraction with an explicit underflow check, modelling the
panic semantics of Rust's `usize` subtraction. -/
def checkedSub (a b : Nat) : Option Nat :=
  if b ≤ a then some (a - b) else none

/-- `State::truncate_ansi_string` with the `max_len - overflow_len`
subtraction made fallible: `none` models a panic on underflow. -/
def State.truncate_checked (self : State) (text : List Char) (max_len : Nat) :
    Option (List Char) :=
  let visible_len := self.calculate_visible_length text
  let overflow_len := utf8Len self.overflow_str
  if visible_len ≤ max_len then some text
  else if max_len ≤ overflow_len then some self.overflow_str
  else
    match checkedSub max_len overflow_len with
    | none => none
    | some target_len => some (truncGo target_len text 0 false ++ self.overflow_str)

mutual
/-- Modelled from the spec: visible length as the count of characters not
inside an escape-sequence span, where a span runs from an ESC to the first
subsequent character m. -/
def specVisibleLength : List Char → Nat
  | [] => 0
  | c :: cs => if c = escChar then specSkipSpan cs else specVisibleLength cs + 1
termination_by s => s.length

/-- Modelled from the spec: skip the remainder of an escape-sequence span,
up to and including the first character m; an unterminated span absorbs
everything to the end of the string and contributes zero. -/
def specSkipSpan : List Char → Nat
  | [] => 0
  | c :: cs => if c = 'm' then specVisibleLength cs else specSkipSpan cs
termination_by s => s.length
end

/-- The `in_escape` flag after scanning a character sequence, starting
from flag value `e` (the shared state machine of both routines). -/
def escState : List Char → Bool → Bool
  | [], e => e
  | c :: cs, e =>
    if c = escChar then escState cs true
    else if e then escState cs (if c = 'm' then false else true)
    else escState cs e

/-- Every ESC character in the sequence is eventually followed by a
character m later in the sequence (no partial escape sequence). -/
def escClosedB : List Char → Bool
  | [] => true
  | c :: cs => (if c = escChar then cs.contains 'm' else true) && escClosedB cs

/-- The modifier keys of the host's key type. -/
inductive KeyModifier where
  | ctrl | alt | shift | super
deriving DecidableEq

/-- A key together with its modifier set (`KeyWithModifier`); modifier
sets (`BTreeSet<KeyModifier>`) are modelled as finite sets. -/
structure KeyWithModifier where
  bare_key : Nat
  key_modifiers : Finset KeyModifier

/-- `get_common_modifiers` (src/main.rs lines 25-37): pop the last key,
then intersect its modifier set with each remaining key's set. -/
def get_common_modifiers (keyvec : List KeyWithModifier) : Finset KeyModifier :=
  match keyvec.getLast? with
  | none => ∅
  | some k =>
    keyvec.dropLast.foldl (fun acc key => acc ∩ key.key_modifiers) k.key_modifiers

theorem length_le_utf8Len (s : List Char) : s.length ≤ utf8Len s := by
  induction s with
  | nil => simp [utf8Len]
  | cons c cs ih =>
    have hc := Char.utf8Size_pos c
    simp only [utf8Len, List.map_cons, List.sum_cons, List.length_cons] at *
    omega

theorem visGo_truncGo_le (target : Nat) :
    ∀ (s : List Char) (cur : Nat) (e : Bool),
      visGo (truncGo target s cur e) e ≤ target - cur := by
  intro s
  induction s with
  | nil => intro cur e; simp [truncGo, visGo]
  | cons c cs ih =>
    intro cur e
    by_cases hc : c = escChar
    · simpa [truncGo, visGo, hc] using ih cur true
    · cases e with
      | true => simpa [truncGo, visGo, hc] using ih cur (if c = 'm' then false else true)
      | false =>
        by_cases ht : target ≤ cur
        · simp [truncGo, visGo, hc, ht]
        · have h := ih (cur + 1) false
          simp [truncGo, visGo, hc, ht]
          omega

/-- Claim C2: a string whose visible length is within the budget is
returned unchanged by `truncate_ansi_string`. -/
theorem truncate_within_budget_id (st : State) (text : List Char) (max_len : Nat)
    (h : st.calculate_visible_length text ≤ max_len) :
    st.truncate_ansi_string text max_len = text := by
  simp [State.truncate_ansi_string, h]

/-- Witness for C2 at text Hello, marker "...", budget 10. -/
theorem truncate_within_budget_id_witness :
    (State.mk 0 "...".data).calculate_visible_length "Hello".data ≤ 10 ∧
      (State.mk 0 "...".data).truncate_ansi_string "Hello".data 10 = "Hello".data :=
  ⟨by decide, truncate_within_budget_id _ _ _ (by decide)⟩

/-- Claim C4: when the visible length exceeds the budget and the budget is
at most the marker's character count, the result is the marker alone. -/
theorem truncate_marker_dominance (st : State) (text : List Char) (max_len : Nat)
    (h1 : max_len < st.calculate_visible_length text)
    (h2 : max_len ≤ st.overflow_str.length) :
    st.truncate_ansi_string text max_len = st.overflow_str := by
  have hv : ¬ st.calculate_visible_length text ≤ max_len := by omega
  have h3 : max_len ≤ utf8Len st.overflow_str :=
    le_trans h2 (length_le_utf8Len st.overflow_str)
  simp [State.truncate_ansi_string, hv, h3]

/-- Witness for C4 at text Hello World, marker "...", budget 2. -/
theorem truncate_marker_dominance_witness :
    2 < (State.mk 0 "...".data).calculate_visible_length "Hello World".data ∧
      2 ≤ "...".data.length ∧
      (State.mk 0 "...".data).truncate_ansi_string "Hello World".data 2 = "...".data :=
  ⟨by decide, by decide, truncate_marker_dominance _ _ _ (by decide) (by decide)⟩

/-- Claim C5: when truncation actually shortens content, the output ends
with exactly the marker as a suffix. -/
theorem truncate_marker_suffix (st : State) (text : List Char) (max_len : Nat)
    (h1 : max_len < st.calculate_visible_length text)
    (h2 : st.overflow_str.length < max_len) :
    ∃ p, st.truncate_ansi_string text max_len = p ++ st.overflow_str := by
  have hv : ¬ st.calculate_visible_length text ≤ max_len := by omega
  by_cases h3 : max_len ≤ utf8Len st.overflow_str
  · exact ⟨[], by simp [State.truncate_ansi_string, hv, h3]⟩
  · exact ⟨truncGo (max_len - utf8Len st.overflow_str) text 0 false,
      by simp [State.truncate_ansi_string, hv, h3]⟩

/-- Witness for C5 at text Hello World, marker "...", budget 5. -/
theorem truncate_marker_suffix_witness :
    5 < (State.mk 0 "...".data).calculate_visible_length "Hello World".data ∧
      "...".data.length < 5 ∧
      ∃ p, (State.mk 0 "...".data).truncate_ansi_string "Hello World".data 5
        = p ++ "...".data :=
  ⟨by decide, by decide, truncate_marker_suffix _ _ _ (by decide) (by decide)⟩

/-- Claim C1: when truncation occurred, the visible length of the output
excluding the appended marker is at most the budget minus the marker's
character count. -/
theorem truncate_visible_bound (st : State) (text : List Char) (max_len : Nat)
    (h1 : max_len < st.calculate_visible_length text)
    (h2 : st.overflow_str.length < max_len) :
    ∃ p, st.truncate_ansi_string text max_len = p ++ st.overflow_str ∧
      st.calculate_visible_length p ≤ max_len - st.overflow_str.length := by
  have hv : ¬ st.calculate_visible_length text ≤ max_len := by omega
  by_cases h3 : max_len ≤ utf8Len st.overflow_str
  · refine ⟨[], by simp [State.truncate_ansi_string, hv, h3], ?_⟩
    simp [State.calculate_visible_length, visGo]
  · refine ⟨truncGo (max_len - utf8Len st.overflow_str) text 0 false,
      by simp [State.truncate_ansi_string, hv, h3], ?_⟩
    have hb := visGo_truncGo_le (max_len - utf8Len st.overflow_str) text 0 false
    have hl : max_len - utf8Len st.overflow_str ≤ max_len - st.overflow_str.length :=
      Nat.sub_le_sub_left (length_le_utf8Len st.overflow_str) max_len
    simp only [Nat.sub_zero] at hb
    exact le_trans hb hl

/-- Claim C3 counterexample: at budget 5 with marker "..." the code keeps
only `5 - 3 = 2` visible characters, so the output differs from the
expected string with visible prefix Hello. -/
theorem truncate_hello_counterexample :
    (State.mk 0 "...".data).truncate_ansi_string "\x1b[1mHello World\x1b[0m".data 5
      ≠ "\x1b[1mHello\x1b[0m...".data := by decide

/-- Claim C3 amended: at budget 5 with marker "..." the kept visible prefix
is He (budget minus marker length), the leading escape sequence is
preserved, the trailing reset sequence is dropped, and the marker is
appended. -/
theorem truncate_hello_amended :
    (State.mk 0 "...".data).truncate_ansi_string "\x1b[1mHello World\x1b[0m".data 5
      = "\x1b[1mHe...".data := by decide

theorem escChar_ne_m : escChar ≠ 'm' := by decide

theorem m_ne_escChar : ('m' : Char) ≠ escChar := by decide

theorem visGo_spec (s : List Char) :
    visGo s false = specVisibleLength s ∧ visGo s true = specSkipSpan s := by
  induction s with
  | nil => simp [visGo, specVisibleLength, specSkipSpan]
  | cons c cs ih =>
    by_cases hc : c = escChar
    · constructor
      · simp [visGo, specVisibleLength, hc, ih.2]
      · simp [visGo, specSkipSpan, hc, escChar_ne_m, ih.2]
    · constructor
      · simp [visGo, specVisibleLength, hc, ih.1]
      · by_cases hm : c = 'm'
        · simp [visGo, specSkipSpan, hc, hm, m_ne_escChar, ih.1]
        · simp [visGo, specSkipSpan, hc, hm, ih.2]

/-- Claim C6: `calculate_visible_length` returns the count of characters
not inside an escape-sequence span, where a span runs from an ESC to the
first subsequent m and an unterminated span absorbs everything to the end
of the string, contributing zero. -/
theorem visible_length_spec_equiv (st : State) (text : List Char) :
    st.calculate_visible_length text = specVisibleLength text :=
  (visGo_spec text).1

/-- Claim C8: the truncation routine is total: its checked variant, in
which the `max_len - overflow_len` subtraction fails on underflow, always
succeeds and agrees with `truncate_ansi_string` (the guard
`max_len ≤ overflow_len` protects the subtraction), and
`calculate_visible_length` is a total structural scan. -/
theorem truncate_checked_total (st : State) (text : List Char) (max_len : Nat) :
    st.truncate_checked text max_len
      = some (st.truncate_ansi_string text max_len) := by
  unfold State.truncate_checked State.truncate_ansi_string checkedSub
  by_cases h1 : st.calculate_visible_length text ≤ max_len
  · simp [h1]
  · by_cases h2 : max_len ≤ utf8Len st.overflow_str
    · simp [h1, h2]
    · have h3 : utf8Len st.overflow_str ≤ max_len := by omega
      simp [h1, h2, h3]

/-- Witness for C1 at text Hello World, marker "...", budget 5. -/
theorem truncate_visible_bound_witness :
    5 < (State.mk 0 "...".data).calculate_visible_length "Hello World".data ∧
      "...".data.length < 5 ∧
      ∃ p, (State.mk 0 "...".data).truncate_ansi_string "Hello World".data 5
          = p ++ "...".data ∧
        (State.mk 0 "...".data).calculate_visible_length p ≤ 5 - "...".data.length :=
  ⟨by decide, by decide, truncate_visible_bound _ _ _ (by decide) (by decide)⟩

theorem mem_m_truncGo (target : Nat) :
    ∀ (s : List Char) (cur : Nat), 'm' ∈ s → 'm' ∈ truncGo target s cur true := by
  intro s
  induction s with
  | nil => intro cur h; cases h
  | cons c cs ih =>
    intro cur h
    by_cases hc : c = escChar
    · have hm : 'm' ∈ cs := by
        rcases List.mem_cons.mp h with h | h
        · exact absurd (hc ▸ h) m_ne_escChar
        · exact h
      have heq : truncGo target (c :: cs) cur true = c :: truncGo target cs cur true := by
        simp [truncGo, hc]
      rw [heq]
      exact List.mem_cons_of_mem _ (ih cur hm)
    · by_cases hm : c = 'm'
      · have heq : truncGo target (c :: cs) cur true
            = c :: truncGo target cs cur false := by
          simp [truncGo, hc, hm, m_ne_escChar]
        rw [heq, hm]
        exact List.mem_cons_self _ _
      · have hmem : 'm' ∈ cs := by
          rcases List.mem_cons.mp h with h | h
          · exact absurd h.symm hm
          · exact h
        have heq : truncGo target (c :: cs) cur true
            = c :: truncGo target cs cur true := by
          simp [truncGo, hc, hm]
        rw [heq]
        exact List.mem_cons_of_mem _ (ih cur hmem)

theorem escClosedB_truncGo (target : Nat) :
    ∀ (s : List Char) (cur : Nat) (e : Bool), escClosedB s = true →
      escClosedB (truncGo target s cur e) = true := by
  intro s
  induction s with
  | nil => intro cur e _; simp [truncGo, escClosedB]
  | cons c cs ih =>
    intro cur e h
    simp only [escClosedB, Bool.and_eq_true] at h
    obtain ⟨h1, h2⟩ := h
    by_cases hc : c = escChar
    · have hm : 'm' ∈ cs := by simpa [hc, List.contains] using h1
      have hmem : 'm' ∈ truncGo target cs cur true := mem_m_truncGo target cs cur hm
      simp [truncGo, hc, escClosedB, List.contains, hmem, ih cur true h2]
    · cases e with
      | true => simp [truncGo, hc, escClosedB, ih cur _ h2]
      | false =>
        by_cases ht : target ≤ cur
        · simp [truncGo, hc, ht, escClosedB]
        · simp [truncGo, hc, ht, escClosedB, ih (cur + 1) false h2]

theorem escClosedB_append {a b : List Char} (ha : escClosedB a = true)
    (hb : escClosedB b = true) : escClosedB (a ++ b) = true := by
  induction a with
  | nil => simpa using hb
  | cons c cs ih =>
    simp only [escClosedB, Bool.and_eq_true, List.cons_append] at ha ⊢
    obtain ⟨h1, h2⟩ := ha
    refine ⟨?_, ih h2⟩
    by_cases hc : c = escChar
    · simp only [hc, List.contains, List.elem_eq_mem, decide_eq_true_eq,
        if_true, eq_self_iff_true, if_pos] at h1 ⊢
      exact List.mem_append.mpr (Or.inl h1)
    · simp [hc]

/-- Claim C7 counterexample: the malformed input consisting of a lone ESC
is within budget, is returned unchanged by `truncate_ansi_string`, and its
ESC is not followed by any m, so the output contains a partial escape
sequence. -/
theorem truncate_escape_atomicity_counterexample :
    (State.mk 0 "...".data).truncate_ansi_string "\x1b".data 5 = "\x1b".data ∧
      escClosedB ((State.mk 0 "...".data).truncate_ansi_string "\x1b".data 5)
        = false := by
  constructor <;> decide

/-- Claim C7 amended: when every ESC in the input text and in the overflow
marker is eventually followed by a character m, the same holds of the
output of `truncate_ansi_string`: no partial escape sequence is ever
introduced. -/
theorem truncate_escape_atomicity_wf (st : State) (text : List Char) (max_len : Nat)
    (ht : escClosedB text = true) (hm : escClosedB st.overflow_str = true) :
    escClosedB (st.truncate_ansi_string text max_len) = true := by
  by_cases h1 : st.calculate_visible_length text ≤ max_len
  · simpa [State.truncate_ansi_string, h1] using ht
  · by_cases h2 : max_len ≤ utf8Len st.overflow_str
    · simpa [State.truncate_ansi_string, h1, h2] using hm
    · have hout := escClosedB_append
        (escClosedB_truncGo (max_len - utf8Len st.overflow_str) text 0 false ht) hm
      simpa [State.truncate_ansi_string, h1, h2] using hout

/-- Witness for the amended C7 at text ESC[1mHello World ESC[0m, marker
"...", budget 5. -/
theorem truncate_escape_atomicity_wf_witness :
    escClosedB "\x1b[1mHello World\x1b[0m".data = true ∧
      escClosedB "...".data = true ∧
      escClosedB ((State.mk 0 "...".data).truncate_ansi_string
        "\x1b[1mHello World\x1b[0m".data 5) = true :=
  ⟨by decide, by decide,
    truncate_escape_atomicity_wf _ _ _ (by decide) (by decide)⟩

theorem truncGo_split (target : Nat) :
    ∀ (s : List Char) (cur : Nat) (e : Bool), cur ≤ target →
      ∃ pre post, s = pre ++ post ∧ truncGo target s cur e = pre ∧
        (post = [] ∨ ∃ c rest, post = c :: rest ∧ c ≠ escChar ∧
          escState pre e = false ∧ cur + visGo pre e = target) := by
  intro s
  induction s with
  | nil =>
    intro cur e _
    exact ⟨[], [], by simp, by simp [truncGo], Or.inl rfl⟩
  | cons c cs ih =>
    intro cur e hcur
    by_cases hc : c = escChar
    · obtain ⟨pre, post, hs, hout, hrest⟩ := ih cur true hcur
      refine ⟨c :: pre, post, by simp [hs], by simp [truncGo, hc, hout], ?_⟩
      rcases hrest with h | ⟨d, rest, hpost, hd, hstate, hcount⟩
      · exact Or.inl h
      · refine Or.inr ⟨d, rest, hpost, hd, ?_, ?_⟩
        · simpa [escState, hc] using hstate
        · simpa [visGo, hc] using hcount
    · cases e with
      | true =>
        obtain ⟨pre, post, hs, hout, hrest⟩ :=
          ih cur (if c = 'm' then false else true) hcur
        refine ⟨c :: pre, post, by simp [hs], by simpa [truncGo, hc] using hout, ?_⟩
        rcases hrest with h | ⟨d, rest, hpost, hd, hstate, hcount⟩
        · exact Or.inl h
        · refine Or.inr ⟨d, rest, hpost, hd, ?_, ?_⟩
          · simpa [escState, hc] using hstate
          · simpa [visGo, hc] using hcount
      | false =>
        by_cases ht : target ≤ cur
        · refine ⟨[], c :: cs, by simp, by simp [truncGo, hc, ht], ?_⟩
          refine Or.inr ⟨c, cs, rfl, hc, by simp [escState], ?_⟩
          simp [visGo]
          omega
        · obtain ⟨pre, post, hs, hout, hrest⟩ := ih (cur + 1) false (by omega)
          refine ⟨c :: pre, post, by simp [hs], by simp [truncGo, hc, ht, hout], ?_⟩
          rcases hrest with h | ⟨d, rest, hpost, hd, hstate, hcount⟩
          · exact Or.inl h
          · refine Or.inr ⟨d, rest, hpost, hd, ?_, ?_⟩
            · simpa [escState, hc] using hstate
            · simp [visGo, hc]
              omega

/-- Claim C9: the copying loop of `truncate_ansi_string` emits a prefix of
the input and stops only upon reaching a visible character with the budget
already consumed: the first dropped character, if any, is a non-ESC
character scanned in the Normal state at which exactly `target` visible
characters have been copied; every escape sequence starting before that
character, including those after the last copied visible character, is in
the emitted prefix. -/
theorem truncate_break_at_visible (target : Nat) (s : List Char) :
    ∃ pre post, s = pre ++ post ∧ truncGo target s 0 false = pre ∧
      (post = [] ∨ ∃ c rest, post = c :: rest ∧ c ≠ escChar ∧
        escState pre false = false ∧ visGo pre false = target) := by
  obtain ⟨pre, post, h1, h2, h3⟩ := truncGo_split target s 0 false (Nat.zero_le _)
  refine ⟨pre, post, h1, h2, ?_⟩
  rcases h3 with h | ⟨c, rest, hpost, hcne, hstate, hcount⟩
  · exact Or.inl h
  · exact Or.inr ⟨c, rest, hpost, hcne, hstate, by omega⟩

theorem mem_foldl_inter (m : KeyModifier) :
    ∀ (l : List KeyWithModifier) (init : Finset KeyModifier),
      m ∈ l.foldl (fun acc key => acc ∩ key.key_modifiers) init ↔
        m ∈ init ∧ ∀ k ∈ l, m ∈ k.key_modifiers := by
  intro l
  induction l with
  | nil => intro init; simp
  | cons a l ih =>
    intro init
    simp only [List.foldl_cons, ih (init ∩ a.key_modifiers), Finset.mem_inter,
      List.mem_cons]
    constructor
    · rintro ⟨⟨hi, ha⟩, hrest⟩
      refine ⟨hi, fun k hk => ?_⟩
      rcases hk with hk | hk
      · exact hk ▸ ha
      · exact hrest k hk
    · rintro ⟨hi, hall⟩
      exact ⟨⟨hi, hall a (Or.inl rfl)⟩, fun k hk => hall k (Or.inr hk)⟩

/-- Claim C10: `get_common_modifiers` returns the empty set on an empty
key list, and on a non-empty key list returns exactly the set of
modifiers common to every key's modifier set. -/
theorem get_common_modifiers_spec :
    get_common_modifiers [] = ∅ ∧
      ∀ keyvec : List KeyWithModifier, keyvec ≠ [] → ∀ m : KeyModifier,
        (m ∈ get_common_modifiers keyvec ↔ ∀ k ∈ keyvec, m ∈ k.key_modifiers) := by
  refine ⟨rfl, ?_⟩
  intro keyvec h m
  have hsplit := List.dropLast_append_getLast h
  have hget : keyvec.getLast? = some (keyvec.getLast h) :=
    List.getLast?_eq_getLast_of_ne_nil h
  have heq : get_common_modifiers keyvec
      = keyvec.dropLast.foldl (fun acc key => acc ∩ key.key_modifiers)
          (keyvec.getLast h).key_modifiers := by
    unfold get_common_modifiers
    rw [hget]
  rw [heq, mem_foldl_inter]
  constructor
  · rintro ⟨hlast, hrest⟩ k hk
    rw [← hsplit] at hk
    rcases List.mem_append.mp hk with h1 | h1
    · exact hrest k h1
    · rw [List.mem_singleton.mp h1]
      exact hlast
  · intro hall
    refine ⟨hall _ ?_, fun k hk => hall k ?_⟩
    · conv in keyvec => rw [← hsplit]
      exact List.mem_append.mpr (Or.inr (List.mem_singleton.mpr rfl))
    · conv in keyvec => rw [← hsplit]
      exact List.mem_append.mpr (Or.inl hk)

/-- Witness for C10 at the two-key list with modifier sets ctrl-alt and
alt-shift: the common modifier alt is in the result. -/
theorem get_common_modifiers_spec_witness :
    ([⟨1, {KeyModifier.ctrl, KeyModifier.alt}⟩,
        ⟨2, {KeyModifier.alt, KeyModifier.shift}⟩] : List KeyWithModifier) ≠ [] ∧
      (KeyModifier.alt ∈ get_common_modifiers
          [⟨1, {KeyModifier.ctrl, KeyModifier.alt}⟩,
            ⟨2, {KeyModifier.alt, KeyModifier.shift}⟩] ↔
        ∀ k ∈ ([⟨1, {KeyModifier.ctrl, KeyModifier.alt}⟩,
            ⟨2, {KeyModifier.alt, KeyModifier.shift}⟩] : List KeyWithModifier),
          KeyModifier.alt ∈ k.key_modifiers) :=
  ⟨by simp, get_common_modifiers_spec.2 _ (by simp) KeyModifier.alt⟩
